import Mathlib

/-!
# nuclei-parser: load, filter, sort and print scan findings

A shallow embedding of `nuclei-parser.go`.

Text held in an `Issue` is produced by `json.Unmarshal`, which always yields
valid UTF-8 (ill-formed input is replaced by U+FFFD), so a field is a Lean
`String`: a sequence of Unicode scalar values, one `Char` per Go rune. Where Go
works on the bytes of that text (`strings.Compare`) the UTF-8 encoding is taken
explicitly. The content of the data file is raw bytes (`List Nat`).

Functions of Go's standard library are modelled in the namespaces `strings`,
`sort` and `fmt`; what they take from tables of the library that are not part of
the program (`unicode.SimpleFold`, the JSON decoder) is a parameter.
-/

namespace NucleiParser

/-! ## Record model -/

/-- The anonymous struct of the field `Info` of `Issue`. -/
structure IssueInfo where
  Name : String
  Severity : String
deriving DecidableEq, Repr

/-- The Go struct `Issue`: one scan finding. -/
structure Issue where
  TemplateID : String
  Info : IssueInfo
  Host : String
  MatchedAt : String
deriving DecidableEq, Repr

/-! ## Severity ranking -/

/-- The map literal `severityOrder`, as its list of entries. -/
def severityOrder : List (String × Int) :=
  [("critical", 1), ("high", 2), ("medium", 3), ("low", 4), ("info", 5), ("unknown", 6)]

/-- Go `severityKey`: the two-result lookup `order, exists := severityOrder[severity]`,
and on a miss the one-result lookup `severityOrder["unknown"]` (zero value `0`
for an absent key). -/
def severityKey (severity : String) : Int :=
  match severityOrder.lookup severity with
  | some order => order
  | none => (severityOrder.lookup "unknown").getD 0

/-! ## Library: strings -/

/-- The UTF-8 encoding of one rune, as Go stores it inside a string. -/
def utf8EncodeRune (c : Char) : List Nat :=
  let v := c.toNat
  if v < 0x80 then [v]
  else if v < 0x800 then [0xC0 + v / 64, 0x80 + v % 64]
  else if v < 0x10000 then [0xE0 + v / 4096, 0x80 + v / 64 % 64, 0x80 + v % 64]
  else [0xF0 + v / 262144, 0x80 + v / 4096 % 64, 0x80 + v / 64 % 64, 0x80 + v % 64]

/-- The bytes of a Go string holding the text `s`. -/
def goBytes (s : String) : List Nat :=
  s.data.flatMap utf8EncodeRune

/-- Three-way byte-wise lexicographic comparison of two byte sequences:
`-1`, `0` or `+1`. -/
def compareBytes : List Nat → List Nat → Int
  | [], [] => 0
  | [], _ :: _ => -1
  | _ :: _, [] => 1
  | x :: xs, y :: ys =>
    if x < y then -1 else if y < x then 1 else compareBytes xs ys

/-- Go `strings.Compare`: compares two strings lexicographically by their bytes. -/
def strings.Compare (a b : String) : Int :=
  compareBytes (goBytes a) (goBytes b)

/-- The rune loop of Go `strings.EqualFold`. Two runes match when they are equal,
or, both being ASCII, when the smaller is an upper-case letter and the larger
its lower-case form, or, otherwise, when the `unicode.SimpleFold` orbit of the
smaller reaches the larger (`simpleFoldReaches`, a table of the library). -/
def strings.equalFoldRunes (simpleFoldReaches : Char → Char → Bool) :
    List Char → List Char → Bool
  | [], [] => true
  | [], _ :: _ => false
  | _ :: _, [] => false
  | sr :: s, tr :: t =>
    if tr = sr then strings.equalFoldRunes simpleFoldReaches s t
    else
      let lo := if tr < sr then tr else sr
      let hi := if tr < sr then sr else tr
      if hi.toNat < 0x80 then
        if 'A'.toNat ≤ lo.toNat ∧ lo.toNat ≤ 'Z'.toNat ∧ hi.toNat = lo.toNat + 'a'.toNat - 'A'.toNat then
          strings.equalFoldRunes simpleFoldReaches s t
        else false
      else if simpleFoldReaches lo hi then strings.equalFoldRunes simpleFoldReaches s t
      else false

/-- Go `strings.EqualFold`: equality under simple Unicode case folding, rune by
rune (a byte that is not valid UTF-8 is read by Go as the rune U+FFFD). -/
def strings.EqualFold (simpleFoldReaches : Char → Char → Bool) (s t : String) : Bool :=
  strings.equalFoldRunes simpleFoldReaches s.data t.data

/-- Go `strings.Split` for a one-byte separator: the pieces between the
separators, one more piece than there are separators. No piece holds the
separator and the pieces joined by it give the input back
(`Split_pieces_no_sep`, `Split_intercalate`). -/
def strings.Split (s : List Nat) (sep : Nat) : List (List Nat) :=
  match s with
  | [] => [[]]
  | c :: cs =>
    if c = sep then [] :: strings.Split cs sep
    else
      match strings.Split cs sep with
      | [] => [[c]]
      | piece :: pieces => (c :: piece) :: pieces

/-! ## Library: sort -/

/-- The inner loop of the library's insertion sort,
`for j := i; j > a && less(data[j], data[j-1]); j-- { swap(j, j-1) }`:
the element `x` moves towards the front past every neighbour it is less than.
The sorted part is held back to front (nearest neighbour first). -/
def sort.insertBack {α : Type} (less : α → α → Bool) (x : α) : List α → List α
  | [] => [x]
  | p :: ps => if less x p then p :: sort.insertBack less x ps else x :: p :: ps

/-- The library's insertion sort, `for i := a + 1; i < b; i++`, with the sorted
part accumulated back to front. -/
def sort.insertionSort {α : Type} (less : α → α → Bool) (data : List α) : List α :=
  (data.foldl (fun sorted x => sort.insertBack less x sorted) []).reverse

/-- Go `sort.SliceStable`: sorts by `less`, keeping equal elements in their
original order. The library runs its insertion sort on blocks and merges them
stably; the result of the insertion sort over the whole slice is the result of
every stable sort when `less` is a strict weak ordering
(`stable_sort_unique`). -/
def sort.SliceStable {α : Type} (data : List α) (less : α → α → Bool) : List α :=
  sort.insertionSort less data

/-! ## Library: fmt -/

/-- The verb `%-Ns` of `fmt.Printf`: the text, then spaces up to the width `N`
counted in runes; a longer text is written whole. -/
def fmt.padRight (width : Nat) (s : String) : String :=
  s ++ String.mk (List.replicate (width - s.length) ' ')

/-! ## The program -/

/-- The comparator handed to `sort.SliceStable` in `main`. -/
def less (a b : Issue) : Bool :=
  if severityKey a.Info.Severity = severityKey b.Info.Severity then
    decide (strings.Compare a.TemplateID b.TemplateID < 0)
  else
    decide (severityKey a.Info.Severity < severityKey b.Info.Severity)

/-- The sort step of `main`. -/
def sortIssues (issues : List Issue) : List Issue :=
  sort.SliceStable issues less

/-- The inner loop of the filter step, over `severities`: the issue is appended
at the first severity that matches, and the loop is left (`break`). -/
def filterInner (fold : Char → Char → Bool) (issue : Issue) (filteredIssues : List Issue) :
    List String → List Issue
  | [] => filteredIssues
  | severity :: rest =>
    if strings.EqualFold fold issue.Info.Severity severity then filteredIssues ++ [issue]
    else filterInner fold issue filteredIssues rest

/-- The outer loop of the filter step, over `issues`, starting from the empty
`filteredIssues`. -/
def filterLoop (fold : Char → Char → Bool) (severities : List String) (issues : List Issue) :
    List Issue :=
  issues.foldl (fun filteredIssues issue => filterInner fold issue filteredIssues severities) []

/-- The filter step of `main`: guarded by `len(severities) > 0`. -/
def filterIssues (fold : Char → Char → Bool) (severities : List String) (issues : List Issue) :
    List Issue :=
  if severities.length > 0 then filterLoop fold severities issues else issues

/-- The loop of the loader over the lines: an empty line and a line that
`json.Unmarshal` rejects are skipped (`continue`), a decoded record is appended. -/
def loadLoop {ε : Type} (unmarshal : List Nat → Except ε Issue) :
    List (List Nat) → List Issue → List Issue
  | [], issues => issues
  | line :: rest, issues =>
    if line = [] then loadLoop unmarshal rest issues
    else
      match unmarshal line with
      | .error _ => loadLoop unmarshal rest issues
      | .ok issue => loadLoop unmarshal rest (issues ++ [issue])

/-- The loader of `main`: the file content split on `"\n"` (byte 10), each line
decoded on its own. -/
def loadIssues {ε : Type} (unmarshal : List Nat → Except ε Issue) (data : List Nat) :
    List Issue :=
  loadLoop unmarshal (strings.Split data 10) []

/-- The border line written by `printTable`. -/
def tableBorder : String :=
  "+--------------------------+--------------------------------------------------+----------+--------------------+----------------------------------------------------------------+\n"

/-- The header line written by `printTable`. -/
def tableHeader : String :=
  "| Template ID              | Name                                             | Severity | Host               | Matched At                                                      |\n"

/-- The format `"| %-24s | %-48s | %-8s | %-18s | %-62s |\n"` applied to five texts. -/
def formatRow (a b c d e : String) : String :=
  "| " ++ fmt.padRight 24 a ++ " | " ++ fmt.padRight 48 b ++ " | " ++ fmt.padRight 8 c ++
    " | " ++ fmt.padRight 18 d ++ " | " ++ fmt.padRight 62 e ++ " |\n"

/-- The row of one record. -/
def issueRow (issue : Issue) : String :=
  formatRow issue.TemplateID issue.Info.Name issue.Info.Severity issue.Host issue.MatchedAt

/-- Go `printTable`: the texts written by its `fmt.Printf` calls, in order. -/
def printTable (issues : List Issue) : List String :=
  [tableBorder, tableHeader, tableBorder] ++ issues.flatMap (fun issue => [issueRow issue, tableBorder])

/-! ## Sample records -/

/-- The first record of the example of the specification. -/
def recT1 : Issue := ⟨"T1", ⟨"A", "low"⟩, "h1", "u1"⟩

/-- The second record of the example of the specification. -/
def recT2 : Issue := ⟨"T2", ⟨"B", "critical"⟩, "h2", "u2"⟩

/-- A record that differs from another only in the spelling of its severity. -/
def recSev (id sev : String) : Issue := ⟨id, ⟨"N", sev⟩, "h", "u"⟩

/-- A toy decoder for concrete runs of the loader: the line `1` is `recT1`, the
line `2` is `recT2`, every other line is rejected. -/
def toyUnmarshal (line : List Nat) : Except String Issue :=
  if line = [49] then .ok recT1
  else if line = [50] then .ok recT2
  else .error "invalid character"

/-- What the loader keeps of one line: the decoded record of a non-empty line
that decodes. -/
def decodedLine {ε : Type} (unmarshal : List Nat → Except ε Issue) (line : List Nat) :
    Option Issue :=
  if line = [] then none
  else
    match unmarshal line with
    | .ok issue => some issue
    | .error _ => none

/-- The test of the filter on one record: some entry of the list is equal to
its severity under `strings.EqualFold`. -/
def severityListed (fold : Char → Char → Bool) (severities : List String) (issue : Issue) :
    Bool :=
  severities.any (fun severity => strings.EqualFold fold issue.Info.Severity severity)

/-! ## Severity ranking: theorems -/

theorem severityKey_other (s : String) (h1 : s ≠ "critical") (h2 : s ≠ "high")
    (h3 : s ≠ "medium") (h4 : s ≠ "low") (h5 : s ≠ "info") : severityKey s = 6 := by
  by_cases h6 : s = "unknown"
  · subst h6; decide
  · simp only [severityKey, severityOrder, List.lookup, beq_false_of_ne h1, beq_false_of_ne h2,
      beq_false_of_ne h3, beq_false_of_ne h4, beq_false_of_ne h5, beq_false_of_ne h6]
    rfl

theorem severityKey_range (s : String) : 1 ≤ severityKey s ∧ severityKey s ≤ 6 := by
  by_cases h1 : s = "critical"
  · subst h1; decide
  by_cases h2 : s = "high"
  · subst h2; decide
  by_cases h3 : s = "medium"
  · subst h3; decide
  by_cases h4 : s = "low"
  · subst h4; decide
  by_cases h5 : s = "info"
  · subst h5; decide
  rw [severityKey_other s h1 h2 h3 h4 h5]; decide

/-- C5: `severityKey` is total and returns 1 for "critical", 2 for "high", 3 for
"medium", 4 for "low", 5 for "info" and 6 for every other string, the empty
string and "unknown" included; its result always lies in 1..6. -/
theorem severityKey_table :
    severityKey "critical" = 1 ∧ severityKey "high" = 2 ∧ severityKey "medium" = 3 ∧
    severityKey "low" = 4 ∧ severityKey "info" = 5 ∧
    (∀ s : String, s ≠ "critical" → s ≠ "high" → s ≠ "medium" → s ≠ "low" → s ≠ "info" →
      severityKey s = 6) ∧
    severityKey "" = 6 ∧ severityKey "unknown" = 6 ∧
    (∀ s : String, 1 ≤ severityKey s ∧ severityKey s ≤ 6) :=
  ⟨by decide, by decide, by decide, by decide, by decide, severityKey_other, by decide,
    by decide, severityKey_range⟩

theorem severityKey_table_witness :
    "Critical" ≠ "critical" ∧ "Critical" ≠ "high" ∧ "Critical" ≠ "medium" ∧
    "Critical" ≠ "low" ∧ "Critical" ≠ "info" ∧ severityKey "Critical" = 6 :=
  ⟨by decide, by decide, by decide, by decide, by decide,
    severityKey_table.2.2.2.2.2.1 "Critical" (by decide) (by decide) (by decide) (by decide)
      (by decide)⟩

/-- C8: the ranking is not case-insensitive. "CRITICAL" and "Critical" are
equal to "critical" under `strings.EqualFold`, whatever the Unicode folding
table, yet `severityKey` ranks them 6 where "critical" has rank 1, and the sort
step puts a record with severity "CRITICAL" after a record with severity
"high". -/
theorem severityKey_case_sensitive :
    (∀ fold, strings.EqualFold fold "CRITICAL" "critical" = true) ∧
    (∀ fold, strings.EqualFold fold "Critical" "critical" = true) ∧
    severityKey "critical" = 1 ∧ severityKey "CRITICAL" = 6 ∧ severityKey "Critical" = 6 ∧
    sortIssues [recSev "T1" "CRITICAL", recSev "T2" "high"] =
      [recSev "T2" "high", recSev "T1" "CRITICAL"] :=
  ⟨fun _ => rfl, fun _ => rfl, by decide, by decide, by decide, by decide⟩

/-! ## Filter: theorems -/

theorem filterInner_eq (fold : Char → Char → Bool) (issue : Issue) (acc : List Issue)
    (severities : List String) :
    filterInner fold issue acc severities =
      if severityListed fold severities issue then acc ++ [issue] else acc := by
  induction severities with
  | nil => simp [filterInner, severityListed]
  | cons s rest ih =>
    by_cases h : strings.EqualFold fold issue.Info.Severity s = true
    · simp [filterInner, severityListed, h]
    · simp only [Bool.not_eq_true] at h
      simp only [filterInner, h, Bool.false_eq_true, if_false, ih]
      simp [severityListed, h]

theorem filterLoop_foldl (fold : Char → Char → Bool) (severities : List String)
    (issues acc : List Issue) :
    issues.foldl (fun filteredIssues issue => filterInner fold issue filteredIssues severities)
        acc =
      acc ++ issues.filter (severityListed fold severities) := by
  induction issues generalizing acc with
  | nil => simp
  | cons x rest ih =>
    rw [List.foldl_cons, ih, filterInner_eq]
    by_cases h : severityListed fold severities x = true
    · simp [h, List.filter_cons]
    · simp [h, List.filter_cons]

theorem filterLoop_eq (fold : Char → Char → Bool) (severities : List String)
    (issues : List Issue) :
    filterLoop fold severities issues = issues.filter (severityListed fold severities) := by
  simp [filterLoop, filterLoop_foldl]

theorem filterIssues_nonempty (fold : Char → Char → Bool) (severities : List String)
    (issues : List Issue) (h : severities ≠ []) :
    filterIssues fold severities issues = issues.filter (severityListed fold severities) := by
  have hl : severities.length > 0 := List.length_pos.mpr h
  simp [filterIssues, hl, filterLoop_eq]

/-- C3: for a non-empty list of severities the filter step returns exactly the
records whose severity is equal, under `strings.EqualFold`, to some entry of
the list, in their original order and each once; the match is by string, not by
rank ("unknown" does not keep "foo"); "Critical" keeps "critical" and
"CRITICAL"; "low" on T1 (low), T2 (critical) yields T1. -/
theorem filterIssues_spec :
    (∀ (fold : Char → Char → Bool) (severities : List String) (issues : List Issue),
      severities ≠ [] →
      filterIssues fold severities issues =
        issues.filter (fun issue =>
          severities.any (fun severity => strings.EqualFold fold issue.Info.Severity severity))) ∧
    (∀ fold, filterIssues fold ["unknown"] [recSev "T" "foo"] = []) ∧
    (∀ fold, filterIssues fold ["Critical"] [recSev "T" "critical", recSev "U" "CRITICAL"] =
      [recSev "T" "critical", recSev "U" "CRITICAL"]) ∧
    (∀ fold, filterIssues fold ["low"] [recT1, recT2] = [recT1]) ∧
    (∀ fold, filterIssues fold ["low", "LOW", "Low"] [recT1, recT2] = [recT1]) :=
  ⟨fun fold severities issues h => filterIssues_nonempty fold severities issues h,
    fun _ => rfl, fun _ => rfl, fun _ => rfl, fun _ => rfl⟩

theorem filterIssues_spec_witness :
    ["high", "INFO"] ≠ [] ∧
    filterIssues (fun _ _ => false) ["high", "INFO"]
        [recSev "a" "info", recSev "b" "low", recSev "c" "High", recSev "d" "Info"] =
      [recSev "a" "info", recSev "c" "High", recSev "d" "Info"] :=
  ⟨by decide,
    (filterIssues_spec.1 (fun _ _ => false) ["high", "INFO"]
      [recSev "a" "info", recSev "b" "low", recSev "c" "High", recSev "d" "Info"]
      (by decide)).trans (by decide)⟩

/-- C4: with the empty list of severities the filter step returns the sequence
unchanged. -/
theorem filterIssues_nil (fold : Char → Char → Bool) (issues : List Issue) :
    filterIssues fold [] issues = issues := by
  simp [filterIssues]

/-- C10: the filter step is idempotent, for an empty and for a non-empty list
of severities. -/
theorem filterIssues_idempotent (fold : Char → Char → Bool) (severities : List String)
    (issues : List Issue) :
    filterIssues fold severities (filterIssues fold severities issues) =
      filterIssues fold severities issues := by
  by_cases h : severities = []
  · subst h; simp [filterIssues]
  · rw [filterIssues_nonempty fold severities _ h, filterIssues_nonempty fold severities _ h,
      List.filter_filter]
    simp

/-! ## Loader: theorems -/

theorem Split_ne_nil (s : List Nat) (sep : Nat) : strings.Split s sep ≠ [] := by
  cases s with
  | nil => simp [strings.Split]
  | cons c cs =>
    unfold strings.Split
    split
    · simp
    · split <;> simp

theorem Split_no_sep (s : List Nat) (sep : Nat) (h : sep ∉ s) : strings.Split s sep = [s] := by
  induction s with
  | nil => simp [strings.Split]
  | cons c cs ih =>
    have hc : c ≠ sep := fun e => h (by simp [e])
    have hcs : sep ∉ cs := fun e => h (by simp [e])
    rw [strings.Split, if_neg hc, ih hcs]

theorem Split_append (a b : List Nat) (sep : Nat) :
    strings.Split (a ++ sep :: b) sep = strings.Split a sep ++ strings.Split b sep := by
  induction a with
  | nil => simp [strings.Split]
  | cons c cs ih =>
    by_cases hc : c = sep
    · simp [strings.Split, hc, ih]
    · rw [List.cons_append, strings.Split, if_neg hc, ih, strings.Split, if_neg hc]
      cases h : strings.Split cs sep with
      | nil => exact absurd h (Split_ne_nil cs sep)
      | cons piece pieces => simp

theorem Split_pieces_no_sep (s : List Nat) (sep : Nat) :
    ∀ piece ∈ strings.Split s sep, sep ∉ piece := by
  induction s with
  | nil => simp [strings.Split]
  | cons c cs ih =>
    by_cases hc : c = sep
    · intro piece hp
      rw [strings.Split, if_pos hc] at hp
      rcases List.mem_cons.mp hp with e | hp
      · simp [e]
      · exact ih piece hp
    · intro piece hp
      rw [strings.Split, if_neg hc] at hp
      cases h : strings.Split cs sep with
      | nil => exact absurd h (Split_ne_nil cs sep)
      | cons first others =>
        rw [h] at hp ih
        rcases List.mem_cons.mp hp with e | hp
        · subst e
          have := ih first (List.mem_cons_self _ _)
          simp only [List.mem_cons, not_or]
          exact ⟨fun e => hc e.symm, this⟩
        · exact ih piece (List.mem_cons_of_mem _ hp)

theorem Split_intercalate (s : List Nat) (sep : Nat) :
    [sep].intercalate (strings.Split s sep) = s := by
  induction s with
  | nil => rfl
  | cons c cs ih =>
    by_cases hc : c = sep
    · rw [strings.Split, if_pos hc]
      cases h : strings.Split cs sep with
      | nil => exact absurd h (Split_ne_nil cs sep)
      | cons first others =>
        rw [h] at ih
        simp only [List.intercalate, List.intersperse, List.flatten, List.nil_append,
          List.singleton_append] at ih ⊢
        rw [ih, hc]
    · rw [strings.Split, if_neg hc]
      cases h : strings.Split cs sep with
      | nil => exact absurd h (Split_ne_nil cs sep)
      | cons first others =>
        rw [h] at ih
        cases others with
        | nil =>
          simp only [List.intercalate, List.intersperse, List.flatten, List.append_nil] at ih ⊢
          rw [ih]
        | cons second more =>
          simp only [List.intercalate, List.intersperse, List.flatten, List.cons_append] at ih ⊢
          rw [ih]

theorem loadLoop_eq {ε : Type} (unmarshal : List Nat → Except ε Issue)
    (lines : List (List Nat)) (acc : List Issue) :
    loadLoop unmarshal lines acc = acc ++ lines.filterMap (decodedLine unmarshal) := by
  induction lines generalizing acc with
  | nil => simp [loadLoop]
  | cons line rest ih =>
    by_cases hl : line = []
    · simp [loadLoop, hl, ih, decodedLine]
    · cases hu : unmarshal line with
      | error e => simp [loadLoop, hl, ih, decodedLine, hu]
      | ok issue => simp [loadLoop, hl, ih, decodedLine, hu]

theorem loadIssues_eq {ε : Type} (unmarshal : List Nat → Except ε Issue) (data : List Nat) :
    loadIssues unmarshal data =
      (strings.Split data 10).filterMap (decodedLine unmarshal) := by
  simp [loadIssues, loadLoop_eq]

theorem length_filterMap_countP {α β : Type} (f : α → Option β) (l : List α) :
    (l.filterMap f).length = l.countP (fun a => (f a).isSome) := by
  induction l with
  | nil => simp
  | cons a rest ih =>
    cases h : f a with
    | none => simp [List.filterMap_cons, h, ih]
    | some b => simp [List.filterMap_cons, h, ih]

theorem decodedLine_isSome {ε : Type} (unmarshal : List Nat → Except ε Issue)
    (line : List Nat) :
    (decodedLine unmarshal line).isSome =
      (decide (line ≠ []) && (unmarshal line).toBool) := by
  by_cases hl : line = []
  · simp [decodedLine, hl]
  · cases hu : unmarshal line with
    | error e => simp [decodedLine, hl, hu, Except.toBool]
    | ok issue => simp [decodedLine, hl, hu, Except.toBool]

theorem decodedLine_skipped {ε : Type} (unmarshal : List Nat → Except ε Issue)
    (line : List Nat) (h : line = [] ∨ ∃ e, unmarshal line = .error e) :
    decodedLine unmarshal line = none := by
  rcases h with h | ⟨e, h⟩
  · simp [decodedLine, h]
  · simp [decodedLine, h]

/-- C6: the loader keeps exactly the decodable lines, in file order: the loaded
sequence is the list of the decoded records of the lines (the content split on
byte 10) that are non-empty and decode; its length is the number K of such
lines; an empty line or a line that fails to decode adds nothing and the lines
before and after it are loaded as without it. -/
theorem loadIssues_spec {ε : Type} (unmarshal : List Nat → Except ε Issue) (data : List Nat) :
    loadIssues unmarshal data =
      (strings.Split data 10).filterMap (fun line =>
        if line = [] then none
        else
          match unmarshal line with
          | .ok issue => some issue
          | .error _ => none) ∧
    (loadIssues unmarshal data).length =
      (strings.Split data 10).countP (fun line =>
        decide (line ≠ []) && (unmarshal line).toBool) ∧
    (∀ front back line : List Nat, 10 ∉ line →
      (line = [] ∨ ∃ e, unmarshal line = .error e) →
      loadIssues unmarshal (front ++ 10 :: (line ++ 10 :: back)) =
        loadIssues unmarshal front ++ loadIssues unmarshal back) := by
  refine ⟨loadIssues_eq unmarshal data, ?_, ?_⟩
  · rw [loadIssues_eq, length_filterMap_countP]
    congr 1
    funext line
    exact decodedLine_isSome unmarshal line
  · intro front back line hsep hbad
    rw [loadIssues_eq, loadIssues_eq, loadIssues_eq, Split_append, Split_append,
      Split_no_sep line 10 hsep]
    simp [List.filterMap_append, decodedLine_skipped unmarshal line hbad]

theorem loadIssues_spec_witness :
    (10 : Nat) ∉ [123, 125] ∧
    ([123, 125] = ([] : List Nat) ∨ ∃ e, toyUnmarshal [123, 125] = .error e) ∧
    loadIssues toyUnmarshal ([49] ++ 10 :: ([123, 125] ++ 10 :: [10, 50, 10])) =
      [recT1, recT2] :=
  ⟨by decide, Or.inr ⟨"invalid character", rfl⟩,
    ((loadIssues_spec toyUnmarshal ([49] ++ 10 :: ([123, 125] ++ 10 :: [10, 50, 10]))).2.2
      [49] [10, 50, 10] [123, 125] (by decide) (Or.inr ⟨"invalid character", rfl⟩)).trans
      (by decide)⟩

/-! ## Library sort: theorems -/

theorem mem_insertBack {α : Type} (less : α → α → Bool) (x q : α) (l : List α) :
    q ∈ sort.insertBack less x l ↔ q = x ∨ q ∈ l := by
  induction l with
  | nil => simp [sort.insertBack]
  | cons p ps ih =>
    unfold sort.insertBack
    split
    · simp only [List.mem_cons, ih]; tauto
    · simp only [List.mem_cons]

theorem insertBack_perm {α : Type} (less : α → α → Bool) (x : α) (l : List α) :
    (sort.insertBack less x l).Perm (x :: l) := by
  induction l with
  | nil => simp [sort.insertBack]
  | cons p ps ih =>
    unfold sort.insertBack
    split
    · exact (List.Perm.cons p ih).trans (List.Perm.swap x p ps)
    · exact List.Perm.refl _

theorem insertBack_pairwise {α : Type} (less : α → α → Bool)
    (hasymm : ∀ a b, less a b = true → less b a = false)
    (htrans : ∀ a b c, less a b = false → less b c = false → less a c = false)
    (x : α) (l : List α) (hl : l.Pairwise (fun a b => less a b = false)) :
    (sort.insertBack less x l).Pairwise (fun a b => less a b = false) := by
  induction l with
  | nil => simp [sort.insertBack]
  | cons p ps ih =>
    rw [List.pairwise_cons] at hl
    unfold sort.insertBack
    split
    · rename_i hxp
      rw [List.pairwise_cons]
      refine ⟨?_, ih hl.2⟩
      intro q hq
      rcases (mem_insertBack less x q ps).mp hq with rfl | hq
      · exact hasymm _ _ hxp
      · exact hl.1 q hq
    · rename_i hxp
      simp only [Bool.not_eq_true] at hxp
      rw [List.pairwise_cons]
      refine ⟨?_, List.pairwise_cons.mpr hl⟩
      intro q hq
      rcases List.mem_cons.mp hq with rfl | hq
      · exact hxp
      · exact htrans _ _ _ hxp (hl.1 q hq)

theorem insertBack_filter {α : Type} (less : α → α → Bool) (p : α → Bool)
    (hp : ∀ a b, p a = true → p b = true → less a b = false) (x : α) (l : List α) :
    (sort.insertBack less x l).filter p = if p x then x :: l.filter p else l.filter p := by
  induction l with
  | nil => simp [sort.insertBack, List.filter_cons]
  | cons q qs ih =>
    unfold sort.insertBack
    split
    · rename_i hxq
      by_cases hx : p x = true
      · have hq : p q = false := by
          by_contra hq
          simp only [Bool.not_eq_false] at hq
          have := hp x q hx hq
          simp [hxq] at this
        simp [List.filter_cons, ih, hx, hq]
      · simp only [Bool.not_eq_true] at hx
        simp [List.filter_cons, ih, hx]
    · simp [List.filter_cons]

theorem foldl_insertBack_perm {α : Type} (less : α → α → Bool) (data acc : List α) :
    (data.foldl (fun sorted x => sort.insertBack less x sorted) acc).Perm (acc ++ data) := by
  induction data generalizing acc with
  | nil => simp
  | cons x rest ih =>
    rw [List.foldl_cons]
    refine (ih _).trans ?_
    refine ((insertBack_perm less x acc).append_right rest).trans ?_
    simp only [List.cons_append]
    exact List.perm_middle.symm

theorem foldl_insertBack_pairwise {α : Type} (less : α → α → Bool)
    (hasymm : ∀ a b, less a b = true → less b a = false)
    (htrans : ∀ a b c, less a b = false → less b c = false → less a c = false)
    (data acc : List α) (hacc : acc.Pairwise (fun a b => less a b = false)) :
    (data.foldl (fun sorted x => sort.insertBack less x sorted) acc).Pairwise
      (fun a b => less a b = false) := by
  induction data generalizing acc with
  | nil => simpa using hacc
  | cons x rest ih =>
    rw [List.foldl_cons]
    exact ih _ (insertBack_pairwise less hasymm htrans x acc hacc)

theorem foldl_insertBack_filter {α : Type} (less : α → α → Bool) (p : α → Bool)
    (hp : ∀ a b, p a = true → p b = true → less a b = false) (data acc : List α) :
    (data.foldl (fun sorted x => sort.insertBack less x sorted) acc).filter p =
      (data.filter p).reverse ++ acc.filter p := by
  induction data generalizing acc with
  | nil => simp
  | cons x rest ih =>
    rw [List.foldl_cons, ih, insertBack_filter less p hp]
    by_cases hx : p x = true
    · simp [List.filter_cons, hx]
    · simp only [Bool.not_eq_true] at hx
      simp [List.filter_cons, hx]

theorem SliceStable_perm {α : Type} (less : α → α → Bool) (data : List α) :
    (sort.SliceStable data less).Perm data := by
  unfold sort.SliceStable sort.insertionSort
  refine (List.reverse_perm _).trans ?_
  simpa using foldl_insertBack_perm less data []

theorem SliceStable_pairwise {α : Type} (less : α → α → Bool)
    (hasymm : ∀ a b, less a b = true → less b a = false)
    (htrans : ∀ a b c, less a b = false → less b c = false → less a c = false)
    (data : List α) :
    (sort.SliceStable data less).Pairwise (fun a b => less b a = false) := by
  unfold sort.SliceStable sort.insertionSort
  rw [List.pairwise_reverse]
  exact foldl_insertBack_pairwise less hasymm htrans data [] List.Pairwise.nil

theorem SliceStable_filter {α : Type} (less : α → α → Bool) (p : α → Bool)
    (hp : ∀ a b, p a = true → p b = true → less a b = false) (data : List α) :
    (sort.SliceStable data less).filter p = data.filter p := by
  unfold sort.SliceStable sort.insertionSort
  rw [List.filter_reverse, foldl_insertBack_filter less p hp]
  simp

theorem less_irrefl_of_asymm {α : Type} (less : α → α → Bool)
    (hasymm : ∀ a b, less a b = true → less b a = false) (a : α) : less a a = false := by
  cases h : less a a with
  | false => rfl
  | true => have := hasymm a a h; simp [h] at this

theorem sorted_classes_unique {α : Type} (less : α → α → Bool)
    (hasymm : ∀ a b, less a b = true → less b a = false)
    (ys zs : List α)
    (hys : ys.Pairwise (fun a b => less b a = false))
    (hzs : zs.Pairwise (fun a b => less b a = false))
    (hcl : ∀ c, ys.filter (fun r => !less c r && !less r c) =
      zs.filter (fun r => !less c r && !less r c)) :
    ys = zs := by
  have hirr := less_irrefl_of_asymm less hasymm
  induction ys generalizing zs with
  | nil =>
    cases zs with
    | nil => rfl
    | cons z zs =>
      have := hcl z
      simp [List.filter_cons, hirr z] at this
  | cons y ys ih =>
    cases zs with
    | nil =>
      have := hcl y
      simp [List.filter_cons, hirr y] at this
    | cons z zs =>
      rw [List.pairwise_cons] at hys hzs
      have hzy : less z y = false := by
        have hz : z ∈ (z :: zs).filter (fun r => !less z r && !less r z) := by
          simp [List.filter_cons, hirr z]
        rw [← hcl z] at hz
        rcases List.mem_cons.mp (List.mem_of_mem_filter hz) with e | hmem
        · rw [e]; exact hirr y
        · exact hys.1 z hmem
      have hyz : less y z = false := by
        have hy : y ∈ (y :: ys).filter (fun r => !less y r && !less r y) := by
          simp [List.filter_cons, hirr y]
        rw [hcl y] at hy
        rcases List.mem_cons.mp (List.mem_of_mem_filter hy) with e | hmem
        · rw [e]; exact hirr z
        · exact hzs.1 y hmem
      have hhead : y = z := by
        have := hcl y
        simp only [List.filter_cons, hirr y, hyz, hzy, Bool.not_false, Bool.and_self,
          if_true] at this
        exact (List.cons.inj this).1
      subst hhead
      congr 1
      apply ih zs hys.2 hzs.2
      intro c
      have := hcl c
      simp only [List.filter_cons] at this
      split at this
      · exact (List.cons.inj this).2
      · exact this

/-- Every stable sort returns what `sort.SliceStable` returns: when `less` is a
strict weak ordering, a sequence that is ordered by `less` and that holds the
elements of each class of equivalent elements of `xs` in their order in `xs`
is the result of the insertion sort over `xs`. -/
theorem stable_sort_unique {α : Type} (less : α → α → Bool)
    (hasymm : ∀ a b, less a b = true → less b a = false)
    (htrans : ∀ a b c, less a b = false → less b c = false → less a c = false)
    (xs ys : List α)
    (hsorted : ys.Pairwise (fun a b => less b a = false))
    (hstable : ∀ c, ys.filter (fun r => !less c r && !less r c) =
      xs.filter (fun r => !less c r && !less r c)) :
    ys = sort.SliceStable xs less := by
  apply sorted_classes_unique less hasymm ys _ hsorted
    (SliceStable_pairwise less hasymm htrans xs)
  intro c
  rw [hstable c, SliceStable_filter less _ _ xs]
  intro a b ha hb
  simp only [Bool.and_eq_true, Bool.not_eq_true', Bool.not_eq_eq_eq_not, Bool.not_true] at ha hb
  exact htrans a c b ha.2 hb.1

/-! ## The comparator of `main`: theorems -/

theorem compareBytes_swap (a b : List Nat) : compareBytes b a = - compareBytes a b := by
  induction a generalizing b with
  | nil => cases b <;> simp [compareBytes]
  | cons x xs ih =>
    cases b with
    | nil => simp [compareBytes]
    | cons y ys =>
      simp only [compareBytes]
      split_ifs <;> first | omega | rfl | exact ih ys

theorem compareBytes_self (a : List Nat) : compareBytes a a = 0 := by
  induction a with
  | nil => rfl
  | cons x xs ih => simp [compareBytes, ih]

theorem compareBytes_trans (a b c : List Nat) (hab : compareBytes a b ≤ 0)
    (hbc : compareBytes b c ≤ 0) : compareBytes a c ≤ 0 := by
  induction a generalizing b c with
  | nil => cases c <;> simp [compareBytes]
  | cons x xs ih =>
    cases b with
    | nil => simp [compareBytes] at hab
    | cons y ys =>
      cases c with
      | nil => simp [compareBytes] at hbc
      | cons z zs =>
        simp only [compareBytes] at hab hbc ⊢
        split_ifs at hab hbc ⊢ <;> first | omega | exact ih ys zs hab hbc

theorem less_false_iff (a b : Issue) :
    less a b = false ↔
      (severityKey b.Info.Severity < severityKey a.Info.Severity ∨
        (severityKey b.Info.Severity = severityKey a.Info.Severity ∧
          strings.Compare b.TemplateID a.TemplateID ≤ 0)) := by
  unfold less strings.Compare
  rw [compareBytes_swap (goBytes a.TemplateID) (goBytes b.TemplateID)]
  by_cases h : severityKey a.Info.Severity = severityKey b.Info.Severity
  · simp only [h, if_true, decide_eq_false_iff_not]
    constructor
    · intro h1; right; exact ⟨trivial, by omega⟩
    · rintro (h1 | ⟨_, h1⟩) <;> omega
  · simp only [h, if_false, decide_eq_false_iff_not]
    constructor
    · intro h1; left; omega
    · rintro (h1 | ⟨h1, _⟩)
      · omega
      · exact absurd h1.symm h

theorem less_asymm (a b : Issue) (h : less a b = true) : less b a = false := by
  rw [less_false_iff]
  by_contra hc
  have h2 : less a b = false := by
    rw [less_false_iff]
    unfold strings.Compare at hc ⊢
    rw [compareBytes_swap (goBytes a.TemplateID) (goBytes b.TemplateID)]
    by_cases hr : severityKey b.Info.Severity = severityKey a.Info.Severity
    · right; refine ⟨hr, ?_⟩
      by_contra h3
      apply hc; right; exact ⟨hr.symm, by omega⟩
    · left
      by_contra h3
      apply hc; left; omega
  simp [h] at h2

theorem less_negtrans (a b c : Issue) (hab : less a b = false) (hbc : less b c = false) :
    less a c = false := by
  rw [less_false_iff] at hab hbc ⊢
  unfold strings.Compare at hab hbc ⊢
  rcases hab with h1 | ⟨h1, h2⟩
  · rcases hbc with h3 | ⟨h3, _⟩
    · left; omega
    · left; omega
  · rcases hbc with h3 | ⟨h3, h4⟩
    · left; omega
    · right; exact ⟨by omega, compareBytes_trans _ _ _ h4 h2⟩

theorem sortIssues_pairwise (issues : List Issue) :
    (sortIssues issues).Pairwise (fun a b =>
      severityKey a.Info.Severity < severityKey b.Info.Severity ∨
        (severityKey a.Info.Severity = severityKey b.Info.Severity ∧
          strings.Compare a.TemplateID b.TemplateID ≤ 0)) := by
  have h := SliceStable_pairwise less less_asymm less_negtrans issues
  exact h.imp (fun {a b} hab => (less_false_iff b a).mp hab)

theorem sortIssues_filter_key (issues : List Issue) (rank : Int) (id : String) :
    (sortIssues issues).filter (fun r =>
      decide (severityKey r.Info.Severity = rank) && decide (r.TemplateID = id)) =
    issues.filter (fun r =>
      decide (severityKey r.Info.Severity = rank) && decide (r.TemplateID = id)) := by
  apply SliceStable_filter
  intro a b ha hb
  simp only [Bool.and_eq_true, decide_eq_true_eq] at ha hb
  rw [less_false_iff]
  right
  refine ⟨by rw [ha.1, hb.1], ?_⟩
  unfold strings.Compare
  rw [ha.2, hb.2, compareBytes_self]

theorem compareBytes_neg_iff (a b : List Nat) : compareBytes a b < 0 ↔ a < b := by
  induction a generalizing b with
  | nil =>
    cases b with
    | nil => simp [compareBytes]
    | cons y ys => exact ⟨fun _ => List.Lex.nil, fun _ => by simp [compareBytes]⟩
  | cons x xs ih =>
    cases b with
    | nil =>
      simp only [compareBytes]
      constructor
      · intro h; omega
      · intro h; cases h
    | cons y ys =>
      simp only [compareBytes]
      split_ifs with h1 h2
      · exact ⟨fun _ => List.Lex.rel h1, fun _ => by omega⟩
      · constructor
        · intro h; omega
        · intro h
          cases h with
          | cons _ => omega
          | rel h3 => omega
      · have e : x = y := by omega
        subst e
        rw [ih]
        constructor
        · exact List.Lex.cons
        · intro h
          cases h with
          | cons h5 => exact h5
          | rel h3 => omega

theorem Compare_le_iff (a b : String) : strings.Compare a b ≤ 0 ↔ goBytes a ≤ goBytes b := by
  unfold strings.Compare
  have h := compareBytes_neg_iff (goBytes b) (goBytes a)
  rw [compareBytes_swap (goBytes a) (goBytes b)] at h
  have h2 : goBytes a ≤ goBytes b ↔ ¬ (goBytes b < goBytes a) := not_lt.symm
  rw [h2, ← h]
  omega

/-! ## Sort step: theorems -/

/-- C1: in the output of the sort step, a record `a` that stands before a
record `b` has a smaller severity rank, or the same rank and a `TemplateID`
that is less than or equal to that of `b` in byte-wise lexicographic order
(`strings.Compare` is not positive); T1 (low), T2 (critical) come out as
T2, T1. -/
theorem sortIssues_ordered :
    (∀ issues : List Issue, (sortIssues issues).Pairwise (fun a b =>
      severityKey a.Info.Severity < severityKey b.Info.Severity ∨
        (severityKey a.Info.Severity = severityKey b.Info.Severity ∧
          goBytes a.TemplateID ≤ goBytes b.TemplateID ∧
          strings.Compare a.TemplateID b.TemplateID ≤ 0))) ∧
    sortIssues [recT1, recT2] = [recT2, recT1] := by
  refine ⟨fun issues => (sortIssues_pairwise issues).imp ?_, by decide⟩
  rintro a b (h | ⟨h1, h2⟩)
  · exact Or.inl h
  · exact Or.inr ⟨h1, (Compare_le_iff _ _).mp h2, h2⟩

/-- C2: the sort step is stable: its output is a permutation of its input, and
the records that have a given severity rank and a given `TemplateID` stand in
the output in their order in the input, whatever their other fields and the
spelling of their severity. -/
theorem sortIssues_stable :
    (∀ issues : List Issue, (sortIssues issues).Perm issues) ∧
    (∀ (issues : List Issue) (rank : Int) (id : String),
      (sortIssues issues).filter (fun r =>
        decide (severityKey r.Info.Severity = rank) && decide (r.TemplateID = id)) =
      issues.filter (fun r =>
        decide (severityKey r.Info.Severity = rank) && decide (r.TemplateID = id))) ∧
    (∀ (issues : List Issue) (a b : Issue), [a, b].Sublist issues →
      severityKey a.Info.Severity = severityKey b.Info.Severity →
      a.TemplateID = b.TemplateID → [a, b].Sublist (sortIssues issues)) ∧
    sortIssues [⟨"T", ⟨"A", "foo"⟩, "h1", "u1"⟩, recT2, ⟨"T", ⟨"B", "bar"⟩, "h2", "u2"⟩,
        recT1, ⟨"T", ⟨"C", "foo"⟩, "h3", "u3"⟩] =
      [recT2, recT1, ⟨"T", ⟨"A", "foo"⟩, "h1", "u1"⟩, ⟨"T", ⟨"B", "bar"⟩, "h2", "u2"⟩,
        ⟨"T", ⟨"C", "foo"⟩, "h3", "u3"⟩] := by
  refine ⟨fun issues => SliceStable_perm less issues, sortIssues_filter_key, ?_, by decide⟩
  intro issues a b hsub hrank hid
  have hf := hsub.filter (fun r =>
    decide (severityKey r.Info.Severity = severityKey b.Info.Severity) &&
      decide (r.TemplateID = b.TemplateID))
  rw [← sortIssues_filter_key issues] at hf
  have hab : [a, b].filter (fun r =>
      decide (severityKey r.Info.Severity = severityKey b.Info.Severity) &&
        decide (r.TemplateID = b.TemplateID)) = [a, b] := by
    simp [List.filter_cons, hrank, hid]
  rw [hab] at hf
  exact hf.trans (List.filter_sublist _)

theorem sortIssues_stable_witness :
    [recSev "T" "foo", recSev "T" "Critical"].Sublist
      [recSev "T" "foo", recT2, recSev "T" "Critical"] ∧
    [recSev "T" "foo", recSev "T" "Critical"].Sublist
      (sortIssues [recSev "T" "foo", recT2, recSev "T" "Critical"]) :=
  ⟨by decide,
    sortIssues_stable.2.2.1 [recSev "T" "foo", recT2, recSev "T" "Critical"]
      (recSev "T" "foo") (recSev "T" "Critical") (by decide) (by decide) (by decide)⟩

/-- C7: in the output of the sort step no record whose severity is not one of
the five known labels (rank 6) stands before a record whose severity is
"critical", "high", "medium", "low" or "info". -/
theorem sortIssues_unknown_last :
    (∀ issues : List Issue, (sortIssues issues).Pairwise (fun a b =>
      ¬ (a.Info.Severity ∉ ["critical", "high", "medium", "low", "info"] ∧
        b.Info.Severity ∈ ["critical", "high", "medium", "low", "info"]))) ∧
    (∀ issues : List Issue, (sortIssues issues).Pairwise (fun a b =>
      ¬ (severityKey a.Info.Severity = 6 ∧
        b.Info.Severity ∈ ["critical", "high", "medium", "low", "info"]))) ∧
    sortIssues [recSev "a" "foo", recSev "b" "info", recSev "c" "", recSev "d" "critical",
        recSev "e" "unknown", recSev "f" "low"] =
      [recSev "d" "critical", recSev "f" "low", recSev "b" "info", recSev "a" "foo",
        recSev "c" "", recSev "e" "unknown"] := by
  have key : ∀ issues : List Issue, (sortIssues issues).Pairwise (fun a b =>
      ¬ (severityKey a.Info.Severity = 6 ∧
        b.Info.Severity ∈ ["critical", "high", "medium", "low", "info"])) := by
    intro issues
    refine (sortIssues_pairwise issues).imp ?_
    intro a b hab ⟨ha, hb⟩
    have hb5 : severityKey b.Info.Severity ≤ 5 := by
      simp only [List.mem_cons, List.mem_singleton, List.not_mem_nil, or_false] at hb
      rcases hb with h | h | h | h | h <;> rw [h] <;> decide
    rcases hab with h | ⟨h, _⟩ <;> omega
  refine ⟨fun issues => (key issues).imp ?_, key, by decide⟩
  intro a b hab ⟨ha, hb⟩
  apply hab
  refine ⟨?_, hb⟩
  simp only [List.mem_cons, List.mem_singleton, List.not_mem_nil, or_false, not_or] at ha
  exact severityKey_other _ ha.1 ha.2.1 ha.2.2.1 ha.2.2.2.1 ha.2.2.2.2

/-! ## Terminal table: theorems -/

theorem padRight_length (width : Nat) (s : String) :
    (fmt.padRight width s).length = max width s.length := by
  rw [fmt.padRight, String.length_append]
  have h : (String.mk (List.replicate (width - s.length) ' ')).length = width - s.length :=
    List.length_replicate _ _
  rw [h]
  omega

theorem padRight_long (width : Nat) (s : String) (h : width ≤ s.length) :
    fmt.padRight width s = s := by
  have h0 : width - s.length = 0 := by omega
  simp only [fmt.padRight, h0, List.replicate_zero]
  exact String.append_empty s

theorem formatRow_length (a b c d e : String) :
    (formatRow a b c d e).length =
      max 24 a.length + max 48 b.length + max 8 c.length + max 18 d.length +
        max 62 e.length + 17 := by
  simp only [formatRow, String.length_append, padRight_length]
  have h1 : "| ".length = 2 := rfl
  have h2 : " | ".length = 3 := rfl
  have h3 : " |\n".length = 3 := rfl
  omega

theorem issueRow_length_fit (issue : Issue) (h1 : issue.TemplateID.length ≤ 24)
    (h2 : issue.Info.Name.length ≤ 48) (h3 : issue.Info.Severity.length ≤ 8)
    (h4 : issue.Host.length ≤ 18) (h5 : issue.MatchedAt.length ≤ 62) :
    (issueRow issue).length = tableBorder.length := by
  have hb : tableBorder.length = 177 := rfl
  rw [issueRow, formatRow_length, hb]
  omega

theorem printTable_length (issues : List Issue) :
    (printTable issues).length = 2 * issues.length + 3 := by
  unfold printTable
  induction issues with
  | nil => rfl
  | cons x rest ih =>
    simp only [List.length_append, List.length_cons, List.length_nil, List.flatMap_cons] at ih ⊢
    omega

set_option maxRecDepth 100000 in
/-- C9: the header line is not a row of the table. `printTable` writes, for the
empty list, the border, the header and the border; the border has 176
characters before its newline and the header 177; the header is not what the
row format gives for the five column titles, its last cell being padded to 63
and not to 62; the last separator of the header stands at index 176 where the
border ends at index 175. A record row whose fields fit has the length of the
border. -/
theorem printTable_header_misaligned :
    printTable [] = [tableBorder, tableHeader, tableBorder] ∧
    tableBorder.length = 177 ∧ tableHeader.length = 178 ∧
    (issueRow recT1).length = 177 ∧
    tableHeader ≠ formatRow "Template ID" "Name" "Severity" "Host" "Matched At" ∧
    tableHeader =
      "| " ++ fmt.padRight 24 "Template ID" ++ " | " ++ fmt.padRight 48 "Name" ++ " | " ++
        fmt.padRight 8 "Severity" ++ " | " ++ fmt.padRight 18 "Host" ++ " | " ++
        fmt.padRight 63 "Matched At" ++ " |\n" ∧
    tableBorder.data.indexesOf '+' = [0, 27, 78, 89, 110, 175] ∧
    tableHeader.data.indexesOf '|' = [0, 27, 78, 89, 110, 176] ∧
    (issueRow recT1).data.indexesOf '|' = [0, 27, 78, 89, 110, 175] :=
  ⟨rfl, rfl, rfl, by decide, by decide, by decide, by decide, by decide, by decide⟩

end NucleiParser
